import Mathlib

/-!
Verification of the stream-counting algorithms of the Data-Stream-Counting
repository: an exact hash-map tally (ExactCounter), a Morris-style
probabilistic counter (MorrisCounter) and a Misra-Gries style bounded-memory
heavy-hitters counter (FrequentCounter).

The Python dictionaries are embedded as insertion-ordered association lists
over String keys (Python dicts preserve insertion order; values are inserted
at the end and updated in place).  FrequentCounter counts are embedded as
Int, matching Python arbitrary-precision integers under the decrement step;
Exact counts and Morris exponents only ever grow from 0/1, so Nat is exact
for them.  The float comparison `random.random() < 1.0 / (2 ** k)` of the
Morris update is embedded with the draw as an explicit rational parameter in
[0,1); at k = 0 the probability is exactly 1.0 in both models.
-/

/-- Membership test of a key in an association list: models `item in dict`. -/
def hasKey {β : Type} : List (String × β) → String → Bool
  | [], _ => false
  | p :: t, x => p.1 == x || hasKey t x

/-- Lookup with default 0: models `dict.get(item, 0)`. -/
def lookup0 {β : Type} [Zero β] : List (String × β) → String → β
  | [], _ => 0
  | p :: t, x => if p.1 == x then p.2 else lookup0 t x

/-- In-place increment of the value stored at key `a`:
models `dict[item] += 1` (all keys of a real dict state are distinct, so the
map touches exactly the entry of `a`). -/
def incrKey {β : Type} [Add β] [One β] (m : List (String × β)) (a : String) :
    List (String × β) :=
  m.map (fun p => if p.1 == a then (p.1, p.2 + 1) else p)

/-- Sum of all stored counts of a FrequentCounter-style table. -/
def sumCounts (m : List (String × Int)) : Int :=
  (m.map Prod.snd).sum

/-- The ranking order used by every `get_top_n`: count descending, ties
broken by item ascending — the Python key `lambda x: (-x[1], x[0])`. -/
def rankLE {β : Type} [LinearOrder β] (p q : String × β) : Prop :=
  q.2 < p.2 ∨ (p.2 = q.2 ∧ p.1 ≤ q.1)

instance {β : Type} [LinearOrder β] : DecidableRel (@rankLE β _) :=
  fun p q => inferInstanceAs (Decidable (q.2 < p.2 ∨ (p.2 = q.2 ∧ p.1 ≤ q.1)))

instance {β : Type} [LinearOrder β] : IsTotal (String × β) (@rankLE β _) := by
  constructor
  intro p q
  rcases lt_trichotomy p.2 q.2 with h | h | h
  · exact Or.inr (Or.inl h)
  · rcases le_total p.1 q.1 with h1 | h1
    · exact Or.inl (Or.inr ⟨h, h1⟩)
    · exact Or.inr (Or.inr ⟨h.symm, h1⟩)
  · exact Or.inl (Or.inl h)

instance {β : Type} [LinearOrder β] : IsTrans (String × β) (@rankLE β _) := by
  constructor
  intro a b c hab hbc
  rcases hab with h1 | ⟨h1, h1s⟩
  · rcases hbc with h2 | ⟨h2, h2s⟩
    · exact Or.inl (h2.trans h1)
    · exact Or.inl (h2 ▸ h1)
  · rcases hbc with h2 | ⟨h2, h2s⟩
    · exact Or.inl (h1 ▸ h2)
    · exact Or.inr ⟨h1.trans h2, h1s.trans h2s⟩

/-- Shared top-N extraction: sort the entries by `rankLE` and keep the first
`n`, the model of `sorted(items, key=lambda x: (-x[1], x[0]))[:n]`.  The sort
key is injective on distinct-key entries, so the sorted list is unique and
any correct sorting algorithm models `sorted`. -/
def topN {β : Type} [LinearOrder β] (m : List (String × β)) (n : Nat) :
    List (String × β) :=
  (m.insertionSort rankLE).take n

/-! ### ExactCounter (src/src/algorithms/exact_counter.py) -/

structure ExactCounter where
  counts : List (String × Nat)

/-- Model of `ExactCounter.__init__`: empty table. -/
def ExactCounter.init : ExactCounter := ⟨[]⟩

/-- Model of `ExactCounter.process`. -/
def ExactCounter.process (c : ExactCounter) (item : String) : ExactCounter :=
  if hasKey c.counts item then
    ⟨incrKey c.counts item⟩
  else
    ⟨c.counts ++ [(item, 1)]⟩

/-- Model of `ExactCounter.query`: returns 0 if the item was never seen. -/
def ExactCounter.query (c : ExactCounter) (item : String) : Nat :=
  lookup0 c.counts item

/-- Model of `ExactCounter.get_top_n`. -/
def ExactCounter.get_top_n (c : ExactCounter) (n : Nat) : List (String × Nat) :=
  topN c.counts n

/-- Processing a whole stream, item by item. -/
def ExactCounter.processAll (c : ExactCounter) (l : List String) : ExactCounter :=
  l.foldl ExactCounter.process c

/-! ### Association-list lemmas -/

theorem lookup0_eq_zero {β : Type} [Zero β] (m : List (String × β)) (x : String)
    (h : hasKey m x = false) : lookup0 m x = 0 := by
  induction m with
  | nil => rfl
  | cons p t ih =>
    simp only [hasKey, Bool.or_eq_false_iff] at h
    simp only [lookup0, h.1, Bool.false_eq_true, if_neg]
    exact ih h.2

theorem hasKey_incrKey {β : Type} [Add β] [One β] (m : List (String × β))
    (a x : String) : hasKey (incrKey m a) x = hasKey m x := by
  induction m with
  | nil => rfl
  | cons p t ih =>
    by_cases h : p.1 = a <;>
      simp [incrKey, hasKey, h, ← ih, incrKey]

theorem keys_incrKey {β : Type} [Add β] [One β] (m : List (String × β))
    (a : String) : (incrKey m a).map Prod.fst = m.map Prod.fst := by
  induction m with
  | nil => rfl
  | cons p t ih =>
    by_cases h : p.1 = a <;>
      simp [incrKey, h, ← ih, incrKey]

theorem lookup0_incrKey_self {β : Type} [Zero β] [Add β] [One β]
    (m : List (String × β)) (a : String) (h : hasKey m a = true) :
    lookup0 (incrKey m a) a = lookup0 m a + 1 := by
  induction m with
  | nil => simp [hasKey] at h
  | cons p t ih =>
    by_cases hp : p.1 = a
    · simp [incrKey, lookup0, hp]
    · simp only [hasKey, Bool.or_eq_true, beq_iff_eq, hp, false_or] at h
      simpa [incrKey, lookup0, hp] using ih h

theorem lookup0_incrKey_other {β : Type} [Zero β] [Add β] [One β]
    (m : List (String × β)) (a x : String) (h : x ≠ a) :
    lookup0 (incrKey m a) x = lookup0 m x := by
  induction m with
  | nil => rfl
  | cons p t ih =>
    by_cases hp : p.1 = a
    · have hpx : p.1 ≠ x := fun hh => h (hh.symm.trans hp)
      simpa [incrKey, lookup0, hp, hpx, Ne.symm h] using ih
    · by_cases hpx : p.1 = x
      · simp [incrKey, lookup0, hp, hpx, h, Ne.symm h]
      · simpa [incrKey, lookup0, hp, hpx, h, Ne.symm h] using ih

theorem lookup0_append {β : Type} [Zero β] (m l2 : List (String × β)) (x : String) :
    lookup0 (m ++ l2) x = if hasKey m x then lookup0 m x else lookup0 l2 x := by
  induction m with
  | nil => simp [hasKey, lookup0]
  | cons p t ih =>
    by_cases hp : p.1 = x
    · simp [lookup0, hasKey, hp]
    · simpa [lookup0, hasKey, hp] using ih

theorem hasKey_append {β : Type} (m l2 : List (String × β)) (x : String) :
    hasKey (m ++ l2) x = (hasKey m x || hasKey l2 x) := by
  induction m with
  | nil => simp [hasKey]
  | cons p t ih => simp [hasKey, ih, Bool.or_assoc]

/-! ### C1: exact counting -/

theorem exact_query_process (c : ExactCounter) (a x : String) :
    (c.process a).query x = c.query x + (if x = a then 1 else 0) := by
  unfold ExactCounter.process ExactCounter.query
  cases h : hasKey c.counts a with
  | true =>
    by_cases hx : x = a
    · subst hx
      simp [lookup0_incrKey_self c.counts x h]
    · simp [lookup0_incrKey_other c.counts a x hx, hx]
  | false =>
    by_cases hx : x = a
    · subst hx
      have h0 : lookup0 c.counts x = 0 := lookup0_eq_zero c.counts x h
      simp [h, lookup0_append, h0, lookup0]
    · have hax : a ≠ x := fun hh => hx hh.symm
      have h2 : lookup0 (c.counts ++ [(a, 1)]) x =
          if hasKey c.counts x then lookup0 c.counts x else 0 := by
        rw [lookup0_append]
        simp [lookup0, hax]
      by_cases hk : hasKey c.counts x = true
      · simp [h, h2, hk, hx]
      · have hk0 := lookup0_eq_zero c.counts x (by simpa using hk)
        simp [h, h2, hk, hx, hk0]

theorem exact_query_processAll (c : ExactCounter) (l : List String) (x : String) :
    (c.processAll l).query x = c.query x + l.count x := by
  induction l generalizing c with
  | nil => simp [ExactCounter.processAll]
  | cons a t ih =>
    have hstep : (c.processAll (a :: t)) = ((c.process a).processAll t) := rfl
    rw [hstep, ih, exact_query_process]
    by_cases hx : x = a
    · subst hx
      simp [List.count_cons, Nat.add_comm, Nat.add_assoc, Nat.add_left_comm]
    · have hax : (a == x) = false := by
        simp only [beq_eq_false_iff_ne, ne_eq]
        exact fun hh => hx hh.symm
      simp [List.count_cons, hax, hx]

/-- C1: after an ExactCounter created empty has processed the whole stream,
`query x` equals the number of occurrences of `x` in the stream (0 for items
never processed). -/
theorem exact_counter_query_eq_occurrences (l : List String) (x : String) :
    (ExactCounter.init.processAll l).query x = l.count x := by
  have := exact_query_processAll ExactCounter.init l x
  simpa [ExactCounter.init, ExactCounter.query, lookup0] using this

/-! ### MorrisCounter (src/src/algorithms/morris_counter.py)

The randomized update is embedded with the uniform draw in [0,1) passed as an
explicit rational argument, replacing `random.random()`; the comparison
`random.random() < 1.0 / (2 ** k)` becomes `draw < 1 / 2 ^ k` over the
rationals. -/

structure MorrisCounter where
  counts : List (String × Nat)

/-- Model of `MorrisCounter.__init__`: empty exponent table. -/
def MorrisCounter.init : MorrisCounter := ⟨[]⟩

/-- Model of `MorrisCounter.process`: insert exponent 0 on first sight, then
increment the exponent when the draw falls below `1 / 2 ^ k`. -/
def MorrisCounter.process (c : MorrisCounter) (item : String) (draw : ℚ) :
    MorrisCounter :=
  let counts1 := if hasKey c.counts item then c.counts else c.counts ++ [(item, 0)]
  let k := lookup0 counts1 item
  if draw < 1 / (2 ^ k : ℚ) then ⟨incrKey counts1 item⟩ else ⟨counts1⟩

/-- Model of `MorrisCounter.query`: the estimate `2 ^ k - 1`. -/
def MorrisCounter.query (c : MorrisCounter) (item : String) : Nat :=
  2 ^ (lookup0 c.counts item) - 1

/-- Model of `MorrisCounter.get_top_n`: pair every tracked item with its
estimate, then sort and truncate. -/
def MorrisCounter.get_top_n (c : MorrisCounter) (n : Nat) : List (String × Nat) :=
  topN (c.counts.map (fun p => (p.1, c.query p.1))) n

/-! ### C4: the first occurrence increments with probability 1 -/

/-- C4: on a fresh MorrisCounter, one `process x` with any draw in [0,1)
raises the exponent of `x` from 0 to 1 (the probability at k = 0 is exactly
1), so `query x` returns exactly 1, deterministically. -/
theorem morris_first_process_deterministic (x : String) (r : ℚ)
    (h0 : 0 ≤ r) (h1 : r < 1) :
    lookup0 (MorrisCounter.init.process x r).counts x = 1 ∧
    (MorrisCounter.init.process x r).query x = 1 := by
  have hk : hasKey (MorrisCounter.init.counts) x = false := rfl
  constructor <;>
    simp [MorrisCounter.process, MorrisCounter.init, MorrisCounter.query, hk,
      lookup0, incrKey, hasKey, h1]

theorem morris_first_process_deterministic_witness :
    ((0 : ℚ) ≤ 1/2 ∧ (1 : ℚ)/2 < 1) ∧
    (lookup0 (MorrisCounter.init.process "a" (1/2)).counts "a" = 1 ∧
     (MorrisCounter.init.process "a" (1/2)).query "a" = 1) :=
  ⟨⟨by norm_num, by norm_num⟩,
   morris_first_process_deterministic "a" (1/2) (by norm_num) (by norm_num)⟩

/-! ### C8: Morris exponents never decrease -/

/-- C8: a single `process a` call, whatever the draw, leaves the exponent of
every item `x` unchanged or raises it by exactly 1; consequently `query x`
is monotone non-decreasing over the run. -/
theorem morris_exponent_monotone (c : MorrisCounter) (a x : String) (r : ℚ) :
    (lookup0 (c.process a r).counts x = lookup0 c.counts x ∨
     lookup0 (c.process a r).counts x = lookup0 c.counts x + 1) ∧
    c.query x ≤ (c.process a r).query x := by
  have key : lookup0 (c.process a r).counts x = lookup0 c.counts x ∨
      lookup0 (c.process a r).counts x = lookup0 c.counts x + 1 := by
    have base :
        lookup0 (if hasKey c.counts a then c.counts else c.counts ++ [(a, 0)]) x
          = lookup0 c.counts x := by
      cases hk : hasKey c.counts a with
      | true => simp
      | false =>
        rw [if_neg (by simp [hk]), lookup0_append]
        cases hx : hasKey c.counts x with
        | true => simp
        | false =>
          rw [if_neg (by simp [hx]), lookup0_eq_zero c.counts x hx]
          by_cases hxa : a = x <;> simp [lookup0, hxa]
    unfold MorrisCounter.process
    by_cases hdraw : r < 1 / (2 ^ lookup0
        (if hasKey c.counts a then c.counts else c.counts ++ [(a, 0)]) a : ℚ)
    · rw [if_pos hdraw]
      by_cases hx : x = a
      · subst hx
        have hkx : hasKey (if hasKey c.counts x then c.counts
            else c.counts ++ [(x, 0)]) x = true := by
          cases hk : hasKey c.counts x with
          | true => simpa [hk] using hk
          | false => simp [hk, hasKey_append, hasKey]
        rw [lookup0_incrKey_self _ _ hkx, base]
        exact Or.inr rfl
      · rw [lookup0_incrKey_other _ _ _ hx, base]
        exact Or.inl rfl
    · rw [if_neg hdraw]
      exact Or.inl base
  refine ⟨key, ?_⟩
  rcases key with h | h <;> unfold MorrisCounter.query <;> rw [h]
  exact Nat.sub_le_sub_right (Nat.pow_le_pow_right (by norm_num) (Nat.le_succ _)) 1

/-! ### FrequentCounter (src/src/algorithms/frequent_counter.py) -/

/-- The global decrement step (CASE 3 of `process`): decrement every tracked
count, then delete the entries whose count reached exactly 0 (the Python
loop collects `items_to_remove` where `counts[key] == 0` and deletes them,
leaving the order of the survivors unchanged). -/
def decAll (m : List (String × Int)) : List (String × Int) :=
  (m.map (fun p => (p.1, p.2 - 1))).filter (fun p => p.2 != 0)

structure FrequentCounter where
  capacity : Int
  counts : List (String × Int)

/-- Model of `FrequentCounter.__init__`: stores the given capacity with no
validation (the Python signature is `capacity: int = 100`) and an empty
table. -/
def FrequentCounter.init (capacity : Int) : FrequentCounter :=
  ⟨capacity, []⟩

/-- Model of `FrequentCounter.process`: CASE 1 increments a monitored item,
CASE 2 inserts a new item while below capacity, CASE 3 is the global
decrement. -/
def FrequentCounter.process (c : FrequentCounter) (item : String) :
    FrequentCounter :=
  if hasKey c.counts item then
    ⟨c.capacity, incrKey c.counts item⟩
  else if (c.counts.length : Int) < c.capacity then
    ⟨c.capacity, c.counts ++ [(item, 1)]⟩
  else
    ⟨c.capacity, decAll c.counts⟩

/-- Model of `FrequentCounter.query`: the count if in the map, else 0. -/
def FrequentCounter.query (c : FrequentCounter) (item : String) : Int :=
  lookup0 c.counts item

/-- Model of `FrequentCounter.get_top_n`. -/
def FrequentCounter.get_top_n (c : FrequentCounter) (n : Nat) :
    List (String × Int) :=
  topN c.counts n

/-- Processing a whole stream, item by item. -/
def FrequentCounter.processAll (c : FrequentCounter) (l : List String) :
    FrequentCounter :=
  l.foldl FrequentCounter.process c

theorem capacity_process (c : FrequentCounter) (a : String) :
    (c.process a).capacity = c.capacity := by
  unfold FrequentCounter.process
  split
  · rfl
  · split <;> rfl

theorem capacity_processAll (c : FrequentCounter) (l : List String) :
    (c.processAll l).capacity = c.capacity := by
  induction l generalizing c with
  | nil => rfl
  | cons a t ih =>
    have hstep : c.processAll (a :: t) = (c.process a).processAll t := rfl
    rw [hstep, ih, capacity_process]

/-! ### C10 and C9: non-positive capacity -/

theorem counts_empty_process (c : FrequentCounter) (a : String)
    (hcap : c.capacity ≤ 0) (h : c.counts = []) : (c.process a).counts = [] := by
  have h1 : hasKey c.counts a = false := by rw [h]; rfl
  have h2 : ¬ ((c.counts.length : Int) < c.capacity) := by
    rw [h]
    simpa using not_lt.mpr hcap
  unfold FrequentCounter.process
  rw [if_neg (by simp [h1]), if_neg h2, h]
  rfl

/-- C10: with capacity ≤ 0 (accepted unvalidated by the constructor), every
`process` call on the empty table falls through to the global-decrement
branch over an empty map, so the table stays empty forever and `query`
returns 0 for every item after any stream. -/
theorem frequent_nonpositive_capacity_inert (cap : Int) (hcap : cap ≤ 0)
    (l : List String) (x : String) :
    ((FrequentCounter.init cap).processAll l).counts = [] ∧
    ((FrequentCounter.init cap).processAll l).query x = 0 := by
  suffices hmain : ∀ c : FrequentCounter, c.capacity ≤ 0 → c.counts = [] →
      (c.processAll l).counts = [] by
    have h := hmain (FrequentCounter.init cap) hcap rfl
    refine ⟨h, ?_⟩
    unfold FrequentCounter.query
    rw [h]
    rfl
  induction l with
  | nil => exact fun c h1 h2 => h2
  | cons a t ih =>
    intro c h1 h2
    have hstep : c.processAll (a :: t) = (c.process a).processAll t := rfl
    rw [hstep]
    exact ih (c.process a) (by rw [capacity_process]; exact h1)
      (counts_empty_process c a h1 h2)

theorem frequent_nonpositive_capacity_inert_witness :
    ((0 : Int) ≤ 0) ∧
    (((FrequentCounter.init 0).processAll ["a", "a"]).counts = [] ∧
     ((FrequentCounter.init 0).processAll ["a", "a"]).query "a" = 0) :=
  ⟨by decide, frequent_nonpositive_capacity_inert 0 (by decide) ["a", "a"] "a"⟩

/-- C9: the constructor performs no validation: `FrequentCounter(capacity=0)`
is accepted and yields a working counter object — `process` and `query` run
on it without any error — instead of being rejected as an invalid
configuration.  This contradicts the documented error-handling design. -/
theorem frequent_nonpositive_capacity_accepted :
    (FrequentCounter.init 0).capacity = 0 ∧
    ((FrequentCounter.init 0).process "a").query "a" = 0 ∧
    ((FrequentCounter.init 0).process "a").counts = [] := by
  refine ⟨rfl, ?_, ?_⟩ <;> rfl

/-! ### Lemmas on the decrement step and on table sums -/

theorem incrKey_cons {β : Type} [Add β] [One β] (p : String × β)
    (t : List (String × β)) (a : String) :
    incrKey (p :: t) a = (if p.1 == a then (p.1, p.2 + 1) else p) :: incrKey t a :=
  rfl

theorem incrKey_id {β : Type} [Add β] [One β] (m : List (String × β)) (a : String)
    (h : hasKey m a = false) : incrKey m a = m := by
  induction m with
  | nil => rfl
  | cons p t ih =>
    simp only [hasKey, Bool.or_eq_false_iff] at h
    rw [incrKey_cons, ih h.2, h.1]
    simp

theorem sumCounts_cons (p : String × Int) (t : List (String × Int)) :
    sumCounts (p :: t) = p.2 + sumCounts t := by
  simp [sumCounts]

theorem hasKey_iff_mem {β : Type} (m : List (String × β)) (x : String) :
    hasKey m x = true ↔ x ∈ m.map Prod.fst := by
  induction m with
  | nil => simp [hasKey]
  | cons p t ih =>
    simp only [hasKey, Bool.or_eq_true, beq_iff_eq, ih, List.map_cons,
      List.mem_cons]
    constructor
    · rintro (h | h)
      · exact Or.inl h.symm
      · exact Or.inr h
    · rintro (h | h)
      · exact Or.inl h.symm
      · exact Or.inr h

theorem lookup0_of_mem_nodup {β : Type} [Zero β] (m : List (String × β))
    (hnd : (m.map Prod.fst).Nodup) (p : String × β) (hp : p ∈ m) :
    lookup0 m p.1 = p.2 := by
  induction m with
  | nil => cases hp
  | cons q t ih =>
    rw [List.map_cons, List.nodup_cons] at hnd
    rcases List.mem_cons.mp hp with rfl | hp2
    · simp [lookup0]
    · have hq : q.1 ≠ p.1 :=
        fun hh => hnd.1 (hh ▸ List.mem_map_of_mem Prod.fst hp2)
      simp [lookup0, hq, ih hnd.2 hp2]

theorem sumCounts_incrKey (m : List (String × Int)) (a : String)
    (hnd : (m.map Prod.fst).Nodup) (h : hasKey m a = true) :
    sumCounts (incrKey m a) = sumCounts m + 1 := by
  induction m with
  | nil => simp [hasKey] at h
  | cons p t ih =>
    rw [List.map_cons, List.nodup_cons] at hnd
    rw [incrKey_cons, sumCounts_cons, sumCounts_cons]
    by_cases hp : p.1 = a
    · have hta : hasKey t a = false := by
        cases hta : hasKey t a with
        | false => rfl
        | true => exact absurd ((hasKey_iff_mem t a).mp hta) (hp ▸ hnd.1)
      rw [incrKey_id t a hta, hp]
      simp
      ring
    · have h2 : hasKey t a = true := by
        simpa [hasKey, hp] using h
      rw [ih hnd.2 h2]
      simp [hp]
      ring

theorem decAll_cons (p : String × Int) (t : List (String × Int)) :
    decAll (p :: t) =
      if p.2 - 1 = 0 then decAll t else (p.1, p.2 - 1) :: decAll t := by
  by_cases hz : p.2 - 1 = 0 <;> simp [decAll, hz]

theorem keys_decAll_sublist (m : List (String × Int)) :
    List.Sublist ((decAll m).map Prod.fst) (m.map Prod.fst) := by
  have h1 : List.Sublist (decAll m) (m.map (fun p => (p.1, p.2 - 1))) :=
    List.filter_sublist _
  have h2 := h1.map Prod.fst
  rwa [List.map_map, List.map_congr_left (fun p _ => rfl)] at h2

theorem hasKey_decAll_false (m : List (String × Int)) (x : String)
    (h : hasKey m x = false) : hasKey (decAll m) x = false := by
  cases hd : hasKey (decAll m) x with
  | false => rfl
  | true =>
    have hm := (keys_decAll_sublist m).subset ((hasKey_iff_mem _ x).mp hd)
    rw [(hasKey_iff_mem m x).mpr hm] at h
    cases h

theorem lookup0_decAll_mem (m : List (String × Int))
    (hnd : (m.map Prod.fst).Nodup) (x : String) (h : hasKey m x = true) :
    lookup0 (decAll m) x = lookup0 m x - 1 := by
  induction m with
  | nil => simp [hasKey] at h
  | cons p t ih =>
    rw [List.map_cons, List.nodup_cons] at hnd
    rw [decAll_cons]
    by_cases hp : p.1 = x
    · have htx : hasKey t x = false := by
        cases htx : hasKey t x with
        | false => rfl
        | true => exact absurd ((hasKey_iff_mem t x).mp htx) (hp ▸ hnd.1)
      by_cases hz : p.2 - 1 = 0
      · rw [if_pos hz,
          lookup0_eq_zero (decAll t) x (hasKey_decAll_false t x htx)]
        simp [lookup0, hp, hz]
      · rw [if_neg hz]
        simp [lookup0, hp]
    · have h2 : hasKey t x = true := by simpa [hasKey, hp] using h
      by_cases hz : p.2 - 1 = 0
      · rw [if_pos hz, ih hnd.2 h2]
        simp [lookup0, hp]
      · rw [if_neg hz]
        simp [lookup0, hp, ih hnd.2 h2]

theorem sumCounts_decAll (m : List (String × Int)) :
    sumCounts (decAll m) = sumCounts m - m.length := by
  induction m with
  | nil => simp [decAll, sumCounts]
  | cons p t ih =>
    rw [decAll_cons, sumCounts_cons]
    by_cases hz : p.2 - 1 = 0
    · rw [if_pos hz, ih]
      simp only [List.length_cons]
      push_cast
      omega
    · rw [if_neg hz, sumCounts_cons, ih]
      simp only [List.length_cons]
      push_cast
      omega

theorem length_decAll_le (m : List (String × Int)) :
    (decAll m).length ≤ m.length := by
  calc (decAll m).length
      ≤ (m.map (fun p => (p.1, p.2 - 1))).length :=
        List.length_filter_le _ _
    _ = m.length := List.length_map _ _

theorem pos_decAll (m : List (String × Int)) (hpos : ∀ p ∈ m, 0 < p.2) :
    ∀ p ∈ decAll m, 0 < p.2 := by
  intro p hp
  have hp2 : p ∈ (m.map (fun q => (q.1, q.2 - 1))).filter
      (fun q => q.2 != 0) := hp
  have h1 : p ∈ m.map (fun q => (q.1, q.2 - 1)) := List.mem_of_mem_filter hp2
  have h2 : (p.2 != 0) = true := (List.mem_filter.mp hp2).2
  obtain ⟨q, hq, rfl⟩ := List.mem_map.mp h1
  have h3 := hpos q hq
  simp only [bne_iff_ne, ne_eq] at h2
  omega

/-! ### Well-formedness of FrequentCounter states -/

/-- Invariants of every reachable FrequentCounter state: distinct keys (it
models a dict), strictly positive counts, and at most `capacity` entries. -/
def FrequentCounter.WF (c : FrequentCounter) : Prop :=
  (c.counts.map Prod.fst).Nodup ∧ (∀ p ∈ c.counts, 0 < p.2) ∧
    (c.counts.length : Int) ≤ c.capacity

theorem wf_init (cap : Int) (h : 0 ≤ cap) : (FrequentCounter.init cap).WF :=
  ⟨List.nodup_nil, fun p hp => absurd hp (List.not_mem_nil p),
    by simpa [FrequentCounter.init] using h⟩

theorem wf_process (c : FrequentCounter) (a : String) (h : c.WF) :
    (c.process a).WF := by
  obtain ⟨hnd, hpos, hlen⟩ := h
  unfold FrequentCounter.process
  by_cases h1 : hasKey c.counts a = true
  · rw [if_pos h1]
    refine ⟨?_, ?_, ?_⟩
    · rw [keys_incrKey]
      exact hnd
    · intro p hp
      obtain ⟨q, hq, rfl⟩ := List.mem_map.mp hp
      have hq2 := hpos q hq
      by_cases hqa : q.1 = a <;> simp [hqa] <;> omega
    · simpa [incrKey] using hlen
  · rw [if_neg h1]
    by_cases h2 : (c.counts.length : Int) < c.capacity
    · rw [if_pos h2]
      refine ⟨?_, ?_, ?_⟩
      · rw [List.map_append]
        refine hnd.append (List.nodup_singleton a) ?_
        intro y hy1 hy2
        rw [List.map_singleton, List.mem_singleton] at hy2
        subst hy2
        exact h1 ((hasKey_iff_mem c.counts y).mpr hy1)
      · intro p hp
        rcases List.mem_append.mp hp with hp | hp
        · exact hpos p hp
        · rw [List.mem_singleton] at hp
          subst hp
          norm_num
      · simp only [List.length_append, List.length_cons, List.length_nil]
        push_cast
        omega
    · rw [if_neg h2]
      refine ⟨(keys_decAll_sublist c.counts).nodup hnd, pos_decAll _ hpos, ?_⟩
      have h3 := length_decAll_le c.counts
      calc ((decAll c.counts).length : Int)
          ≤ (c.counts.length : Int) := by exact_mod_cast h3
        _ ≤ c.capacity := hlen

theorem wf_processAll (c : FrequentCounter) (l : List String) (h : c.WF) :
    (c.processAll l).WF := by
  induction l generalizing c with
  | nil => exact h
  | cons a t ih => exact ih (c.process a) (wf_process c a h)

/-! ### C5: state invariants hold after every stream -/

/-- C5: with positive capacity, after any sequence of `process` calls the
number of tracked items is at most the capacity and every tracked count is
strictly positive (entries that reach 0 are removed, not kept at zero). -/
theorem frequent_counter_state_invariant (cap : Int) (hcap : 0 < cap)
    (l : List String) :
    ((((FrequentCounter.init cap).processAll l).counts.length : Int) ≤ cap) ∧
    (∀ p ∈ ((FrequentCounter.init cap).processAll l).counts, 0 < p.2) := by
  have hwf := wf_processAll (FrequentCounter.init cap) l (wf_init cap hcap.le)
  obtain ⟨hnd, hpos, hlen⟩ := hwf
  rw [capacity_processAll] at hlen
  exact ⟨hlen, hpos⟩

theorem frequent_counter_state_invariant_witness :
    ((0 : Int) < 2) ∧
    (((((FrequentCounter.init 2).processAll
        ["a", "b", "c", "a"]).counts.length : Int) ≤ 2) ∧
     (∀ p ∈ ((FrequentCounter.init 2).processAll ["a", "b", "c", "a"]).counts,
        0 < p.2)) :=
  ⟨by decide,
   frequent_counter_state_invariant 2 (by decide) ["a", "b", "c", "a"]⟩

/-! ### C2: FrequentCounter never overestimates -/

theorem frequent_query_process_le (c : FrequentCounter) (a x : String)
    (hnd : (c.counts.map Prod.fst).Nodup) :
    (c.process a).query x ≤ c.query x + (if x = a then 1 else 0) := by
  unfold FrequentCounter.process FrequentCounter.query
  by_cases h1 : hasKey c.counts a = true
  · rw [if_pos h1]
    by_cases hx : x = a
    · subst hx
      rw [lookup0_incrKey_self c.counts x h1]
      simp
    · rw [lookup0_incrKey_other c.counts a x hx]
      simp [hx]
  · rw [if_neg h1]
    by_cases h2 : (c.counts.length : Int) < c.capacity
    · rw [if_pos h2]
      by_cases hx : x = a
      · subst hx
        have h0 := lookup0_eq_zero c.counts x (by simpa using h1)
        rw [lookup0_append]
        simp [h1, lookup0, h0]
      · have hax : a ≠ x := fun hh => hx hh.symm
        rw [lookup0_append]
        by_cases hk : hasKey c.counts x = true
        · simp [hk, hx]
        · have h0 := lookup0_eq_zero c.counts x (by simpa using hk)
          simp [hk, lookup0, hax, h0, hx]
    · rw [if_neg h2]
      by_cases hk : hasKey c.counts x = true
      · rw [lookup0_decAll_mem c.counts hnd x hk]
        split <;> omega
      · have h0 := lookup0_eq_zero (decAll c.counts) x
          (hasKey_decAll_false c.counts x (by simpa using hk))
        have h0b := lookup0_eq_zero c.counts x (by simpa using hk)
        rw [h0, h0b]
        split <;> omega

theorem frequent_query_le_count (c : FrequentCounter) (l : List String)
    (x : String) (hwf : c.WF) :
    (c.processAll l).query x ≤ c.query x + (l.count x : Int) := by
  induction l generalizing c with
  | nil => simp [FrequentCounter.processAll]
  | cons a t ih =>
    have hstep : c.processAll (a :: t) = (c.process a).processAll t := rfl
    rw [hstep]
    have h1 := ih (c.process a) (wf_process c a hwf)
    have h2 := frequent_query_process_le c a x hwf.1
    have hc : ((a :: t).count x : Int)
        = (t.count x : Int) + (if x = a then 1 else 0) := by
      by_cases hx : x = a
      · subst hx
        rw [List.count_cons_self]
        push_cast
        simp
      · have hax : (a == x) = false := by
          simp only [beq_eq_false_iff_ne, ne_eq]
          exact fun hh => hx hh.symm
        rw [List.count_cons, hax]
        simp [hx]
    rw [hc]
    by_cases hx : x = a
    · simp only [hx, eq_self_iff_true, if_true] at h1 h2 ⊢
      omega
    · simp only [hx, if_false] at h1 h2 ⊢
      omega

/-- C2: with positive capacity, after a FrequentCounter and an ExactCounter
have processed the same stream, the Frequent-Count estimate for every item
is at most the exact count — it never overestimates. -/
theorem frequent_query_le_exact_query (cap : Int) (hcap : 0 < cap)
    (l : List String) (x : String) :
    ((FrequentCounter.init cap).processAll l).query x ≤
      ((ExactCounter.init.processAll l).query x : Int) := by
  have h1 := frequent_query_le_count (FrequentCounter.init cap) l x
      (wf_init cap hcap.le)
  have h2 := exact_query_processAll ExactCounter.init l x
  have h3 : ExactCounter.init.query x = 0 := rfl
  have h4 : (FrequentCounter.init cap).query x = 0 := rfl
  rw [h2, h3]
  rw [h4] at h1
  simpa using h1

theorem frequent_query_le_exact_query_witness :
    ((0 : Int) < 1) ∧
    ((FrequentCounter.init 1).processAll ["a", "a", "b"]).query "a" ≤
      ((ExactCounter.init.processAll ["a", "a", "b"]).query "a" : Int) :=
  ⟨by decide,
   frequent_query_le_exact_query 1 (by decide) ["a", "a", "b"] "a"⟩

/-! ### The Misra-Gries accounting lemma -/

theorem sumCounts_append_one (m : List (String × Int)) (a : String) :
    sumCounts (m ++ [(a, 1)]) = sumCounts m + 1 := by
  simp [sumCounts]

/-- Per-event accounting behind the Misra-Gries guarantees: after the whole
stream some number `D` of global-decrement events has happened; each event
costs every single item at most one occurrence, and each event spends
`capacity + 1` stream positions, so the final table sum plus
`D * (capacity + 1)` never exceeds the stream length. -/
theorem frequent_loss_bound (cap : Int) (hcap : 0 ≤ cap) (l : List String) :
    ∃ D : Nat,
      (∀ x : String, (l.count x : Int) ≤
        ((FrequentCounter.init cap).processAll l).query x + D) ∧
      sumCounts ((FrequentCounter.init cap).processAll l).counts
        + (D : Int) * (cap + 1) ≤ (l.length : Int) := by
  induction l using List.reverseRecOn with
  | nil =>
    refine ⟨0, fun x => ?_, ?_⟩
    · simp [FrequentCounter.processAll, FrequentCounter.query,
        FrequentCounter.init, lookup0]
    · simp [FrequentCounter.processAll, FrequentCounter.init, sumCounts]
  | append_singleton t a ih =>
    obtain ⟨D, hD1, hD2⟩ := ih
    have hstep : (FrequentCounter.init cap).processAll (t ++ [a])
        = ((FrequentCounter.init cap).processAll t).process a := by
      unfold FrequentCounter.processAll
      rw [List.foldl_append]
      rfl
    rw [hstep]
    set c := (FrequentCounter.init cap).processAll t with hcdef
    have hwf : c.WF := wf_processAll _ t (wf_init cap hcap)
    obtain ⟨hnd, hpos, hlen⟩ := hwf
    have hcapc : c.capacity = cap := capacity_processAll _ t
    have hcount : ∀ x : String, ((t ++ [a]).count x : Int)
        = (t.count x : Int) + (if x = a then 1 else 0) := by
      intro x
      rw [List.count_append]
      by_cases hx : x = a
      · subst hx
        rw [List.count_singleton]
        push_cast
        simp
      · have hax : (a == x) = false := by
          simp only [beq_eq_false_iff_ne, ne_eq]
          exact fun hh => hx hh.symm
        rw [List.count_singleton, hax]
        simp [hx]
    have hlng : ((t ++ [a]).length : Int) = (t.length : Int) + 1 := by
      simp
    by_cases h1 : hasKey c.counts a = true
    · -- CASE 1: the item is already monitored
      refine ⟨D, fun x => ?_, ?_⟩
      · have hq : (c.process a).query x
            = c.query x + (if x = a then 1 else 0) := by
          unfold FrequentCounter.process FrequentCounter.query
          rw [if_pos h1]
          by_cases hx : x = a
          · subst hx
            rw [lookup0_incrKey_self c.counts x h1]
            simp
          · rw [lookup0_incrKey_other c.counts a x hx]
            simp [hx]
        rw [hq, hcount x]
        have h3 := hD1 x
        by_cases hx : x = a
        · simp only [hx, eq_self_iff_true, if_true] at h3 ⊢
          unfold FrequentCounter.query at h3 ⊢
          omega
        · simp only [hx, if_false] at h3 ⊢
          unfold FrequentCounter.query at h3 ⊢
          omega
      · have hsum : sumCounts (c.process a).counts = sumCounts c.counts + 1 := by
          unfold FrequentCounter.process
          rw [if_pos h1]
          exact sumCounts_incrKey c.counts a hnd h1
        rw [hsum, hlng]
        linarith
    · by_cases h2 : (c.counts.length : Int) < c.capacity
      · -- CASE 2: new item, with space to insert it
        have hform : c.process a = ⟨c.capacity, c.counts ++ [(a, 1)]⟩ := by
          unfold FrequentCounter.process
          rw [if_neg h1, if_pos h2]
        refine ⟨D, fun x => ?_, ?_⟩
        · have hq : (c.process a).query x
              = if x = a then 1 else c.query x := by
            rw [hform]
            unfold FrequentCounter.query
            by_cases hx : x = a
            · subst hx
              have h0 := lookup0_eq_zero c.counts x (by simpa using h1)
              rw [lookup0_append]
              simp [lookup0, h0, by simpa using h1]
            · have hax : a ≠ x := fun hh => hx hh.symm
              rw [lookup0_append]
              by_cases hk : hasKey c.counts x = true
              · simp [hk, hx]
              · have h0 := lookup0_eq_zero c.counts x (by simpa using hk)
                simp [hk, lookup0, hax, h0, hx]
          rw [hq, hcount x]
          have h3 := hD1 x
          by_cases hx : x = a
          · subst hx
            have h0 : c.query x = 0 :=
              lookup0_eq_zero c.counts x (by simpa using h1)
            rw [h0] at h3
            simp only [eq_self_iff_true, if_true]
            omega
          · simp only [hx, if_false] at h3 ⊢
            unfold FrequentCounter.query at h3 ⊢
            omega
        · have hsum : sumCounts (c.process a).counts
              = sumCounts c.counts + 1 := by
            rw [hform]
            exact sumCounts_append_one c.counts a
          rw [hsum, hlng]
          linarith
      · -- CASE 3: new item, table full: global decrement event
        have hform : c.process a = ⟨c.capacity, decAll c.counts⟩ := by
          unfold FrequentCounter.process
          rw [if_neg h1, if_neg h2]
        have hfull : (c.counts.length : Int) = cap := by
          rw [hcapc] at h2 hlen
          omega
        refine ⟨D + 1, fun x => ?_, ?_⟩
        · rw [hcount x]
          have h3 := hD1 x
          by_cases hx : x = a
          · subst hx
            have h0 : c.query x = 0 :=
              lookup0_eq_zero c.counts x (by simpa using h1)
            have h0d : (c.process x).query x = 0 := by
              rw [hform]
              exact lookup0_eq_zero (decAll c.counts) x
                (hasKey_decAll_false c.counts x (by simpa using h1))
            rw [h0] at h3
            rw [h0d]
            simp only [eq_self_iff_true, if_true]
            push_cast
            omega
          · have hmono : c.query x ≤ (c.process a).query x + 1 := by
              rw [hform]
              unfold FrequentCounter.query
              by_cases hk : hasKey c.counts x = true
              · rw [lookup0_decAll_mem c.counts hnd x hk]
                omega
              · rw [lookup0_eq_zero c.counts x (by simpa using hk),
                  lookup0_eq_zero (decAll c.counts) x
                    (hasKey_decAll_false c.counts x (by simpa using hk))]
                omega
            simp only [hx, if_false]
            push_cast
            omega
        · have hsum : sumCounts (c.process a).counts
              = sumCounts c.counts - cap := by
            rw [hform]
            show sumCounts (decAll c.counts) = sumCounts c.counts - cap
            rw [sumCounts_decAll, hfull]
          rw [hsum, hlng]
          have hexp : ((D : Int) + 1) * (cap + 1)
              = (D : Int) * (cap + 1) + cap + 1 := by ring
          push_cast
          linarith

/-! ### C6: the tracked counts never sum past the stream length -/

/-- C6: with positive capacity, after the whole stream the sum of `query x`
over all currently tracked items `x` is at most the stream length. -/
theorem frequent_tracked_sum_le_length (cap : Int) (hcap : 0 < cap)
    (l : List String) :
    ((((FrequentCounter.init cap).processAll l).counts).map
        (fun p => ((FrequentCounter.init cap).processAll l).query p.1)).sum
      ≤ (l.length : Int) := by
  obtain ⟨D, hD1, hD2⟩ := frequent_loss_bound cap hcap.le l
  set c := (FrequentCounter.init cap).processAll l with hcdef
  have hwf : c.WF := wf_processAll _ l (wf_init cap hcap.le)
  have hmap : (c.counts.map (fun p => c.query p.1)) = c.counts.map Prod.snd := by
    apply List.map_congr_left
    intro p hp
    exact lookup0_of_mem_nodup c.counts hwf.1 p hp
  rw [hmap]
  have hD0 : 0 ≤ (D : Int) * (cap + 1) :=
    mul_nonneg (Int.natCast_nonneg D) (by omega)
  have h2 : sumCounts c.counts + (D : Int) * (cap + 1) ≤ (l.length : Int) := hD2
  unfold sumCounts at h2
  linarith

theorem frequent_tracked_sum_le_length_witness :
    ((0 : Int) < 1) ∧
    ((((FrequentCounter.init 1).processAll ["a", "a", "b"]).counts).map
        (fun p => ((FrequentCounter.init 1).processAll ["a", "a", "b"]).query p.1)).sum
      ≤ ((["a", "a", "b"] : List String).length : Int) :=
  ⟨by decide, frequent_tracked_sum_le_length 1 (by decide) ["a", "a", "b"]⟩

/-! ### C3: the Misra-Gries presence bound -/

/-- C3: with positive capacity k, every item whose true occurrence count
exceeds streamLength / (k + 1) is still tracked after the full stream:
its query value is strictly positive. -/
theorem frequent_heavy_hitter_present (cap : Int) (hcap : 0 < cap)
    (l : List String) (x : String)
    (hx : (l.length : ℚ) / ((cap : ℚ) + 1) < (l.count x : ℚ)) :
    0 < ((FrequentCounter.init cap).processAll l).query x := by
  have hcapq : (0 : ℚ) < (cap : ℚ) + 1 := by
    have h := hcap
    have : (0 : ℚ) < (cap : ℚ) := by exact_mod_cast h
    linarith
  have hmul : (l.length : ℚ) < (l.count x : ℚ) * ((cap : ℚ) + 1) :=
    (div_lt_iff₀ hcapq).mp hx
  have hmulz : (l.length : Int) < (l.count x : Int) * (cap + 1) := by
    exact_mod_cast hmul
  obtain ⟨D, hD1, hD2⟩ := frequent_loss_bound cap hcap.le l
  set c := (FrequentCounter.init cap).processAll l with hcdef
  have hwf : c.WF := wf_processAll _ l (wf_init cap hcap.le)
  have hsumpos : 0 ≤ sumCounts c.counts := by
    unfold sumCounts
    apply List.sum_nonneg
    intro y hy
    obtain ⟨p, hp, rfl⟩ := List.mem_map.mp hy
    exact (hwf.2.1 p hp).le
  have hDle : (D : Int) * (cap + 1) ≤ (l.length : Int) := by linarith
  have h3 := hD1 x
  by_contra hq
  push_neg at hq
  have h4 : (l.count x : Int) ≤ (D : Int) := by linarith
  have h5 : (l.count x : Int) * (cap + 1) ≤ (D : Int) * (cap + 1) :=
    mul_le_mul_of_nonneg_right h4 (by linarith)
  linarith

theorem frequent_heavy_hitter_present_witness :
    ((0 : Int) < 1 ∧
      ((["a", "a", "b"] : List String).length : ℚ) / (((1 : Int) : ℚ) + 1)
        < ((["a", "a", "b"] : List String).count "a" : ℚ)) ∧
    0 < ((FrequentCounter.init 1).processAll ["a", "a", "b"]).query "a" :=
  ⟨⟨by decide, by
      have hcnt : (["a", "a", "b"] : List String).count "a" = 2 := rfl
      rw [hcnt]
      norm_num⟩,
   frequent_heavy_hitter_present 1 (by decide) ["a", "a", "b"] "a"
     (by
      have hcnt : (["a", "a", "b"] : List String).count "a" = 2 := rfl
      rw [hcnt]
      norm_num)⟩

/-! ### C7: top-N length, order and contents -/

theorem topN_spec {β : Type} [LinearOrder β] (m : List (String × β)) (n : Nat) :
    (topN m n).length = min n m.length ∧
    List.Sorted rankLE (topN m n) ∧
    ∀ p ∈ topN m n, p ∈ m := by
  refine ⟨?_, ?_, ?_⟩
  · unfold topN
    rw [List.length_take, List.length_insertionSort]
  · exact List.Pairwise.sublist (List.take_sublist n _)
      (List.sorted_insertionSort rankLE m)
  · intro p hp
    have h1 : p ∈ m.insertionSort rankLE :=
      (List.take_sublist n _).subset hp
    exact (List.perm_insertionSort rankLE m).subset h1

/-- C7: for each of the three counters, in any state and for every requested
size n, `get_top_n n` returns min n (number of tracked items) pairs, sorted
by count descending with ties broken by item ascending; every returned pair
is a tracked entry (for Morris, a tracked item paired with its estimate). -/
theorem get_top_n_spec (n : Nat) (e : ExactCounter) (m : MorrisCounter)
    (f : FrequentCounter) :
    ((e.get_top_n n).length = min n e.counts.length ∧
      List.Sorted rankLE (e.get_top_n n) ∧
      ∀ p ∈ e.get_top_n n, p ∈ e.counts) ∧
    ((m.get_top_n n).length = min n m.counts.length ∧
      List.Sorted rankLE (m.get_top_n n) ∧
      ∀ p ∈ m.get_top_n n, p ∈ m.counts.map (fun q => (q.1, m.query q.1))) ∧
    ((f.get_top_n n).length = min n f.counts.length ∧
      List.Sorted rankLE (f.get_top_n n) ∧
      ∀ p ∈ f.get_top_n n, p ∈ f.counts) := by
  refine ⟨topN_spec e.counts n, ?_, topN_spec f.counts n⟩
  have h := topN_spec (m.counts.map (fun q => (q.1, m.query q.1))) n
  simpa [MorrisCounter.get_top_n, List.length_map] using h
